import Mathlib

set_option maxRecDepth 100000

/-!
# Verification of the secp256k1 core of `tashi21/bitcoin-rust`

This file gives a shallow embedding of the repository's specialised
secp256k1 module (`src/secp256k1/{element,point,keys,signature,constants}.rs`)
and proves or refutes the frozen claims about it.

Modelling conventions:
* `ibig::UBig` (arbitrary-precision unsigned integer) is modelled as `ℕ`.
* Rust `panic!`/`unwrap` on a missing value is modelled by `Option`, with
  `none` standing for the panic.
* Modular-ring arithmetic (`ibig::modular`) is modelled by explicit `% P`
  (resp. `% N`) arithmetic on `ℕ`; ring division (multiplication by the
  modular inverse, which panics on a non-invertible divisor) is modelled by
  multiplication with the Fermat inverse `b ^ (modulus - 2) % modulus`,
  which agrees with the ring inverse for every invertible divisor because
  both moduli are prime.
* Strings are modelled as lists of their ASCII byte values (`List ℕ`),
  which is also exactly the view `str::as_bytes` gives the Rust code.
* The external HMAC-SHA-256 collaborator is an abstract parameter
  `hmac : List ℕ → List ℕ → List ℕ` (key, message ↦ digest), and the
  unbounded retry loop of the nonce derivation is given explicit fuel.
-/

namespace Secp256k1

/-- The secp256k1 field prime `P = 2^256 - 2^32 - 977`
(`constants.rs`, thread-local `P`). -/
def Psecp : ℕ :=
  0xFFFFFFFFFFFFFFFFFFFFFFFFFFFFFFFFFFFFFFFFFFFFFFFFFFFFFFFEFFFFFC2F

/-- The secp256k1 group order `N` (`constants.rs`, thread-local `N`). -/
def Nsecp : ℕ :=
  0xFFFFFFFFFFFFFFFFFFFFFFFFFFFFFFFEBAAEDCE6AF48A03BBFD25E8CD0364141

/-- x-coordinate of the generator point `G` (`constants.rs`). -/
def Gx : ℕ :=
  0x79BE667EF9DCBBAC55A06295CE870B07029BFCDB2DCE28D959F2815B16F81798

/-- y-coordinate of the generator point `G` (`constants.rs`). -/
def Gy : ℕ :=
  0x483ADA7726A3C4655DA4FBFC0E1108A8FD17B448A68554199C47D08FFB10D4B8

/-- Fuel-indexed binary modular exponentiation; the fuel only bounds the
recursion depth (one unit per halving of the exponent), so any fuel at
least the exponent computes the true value.  This is the executable model
of `ibig`'s ring `pow`. -/
def powModAux : ℕ → ℕ → ℕ → ℕ → ℕ
  | 0, _, _, m => 1 % m
  | f + 1, b, e, m =>
    if e = 0 then 1 % m
    else
      let r := powModAux f b (e / 2) m
      if e % 2 = 1 then r * r % m * (b % m) % m else r * r % m

/-- Modular exponentiation `b ^ e % m`, executable for 256-bit exponents. -/
def powMod (b e m : ℕ) : ℕ := powModAux (e + 1) b e m

/-- `Element` (`element.rs`): a field element, a single unsigned integer.
The range invariant `num < Psecp` is enforced by the constructor
`elementNew`, not by the type. -/
structure Element where
  num : ℕ
deriving DecidableEq

/-- `Element::new` (`element.rs` lines 23–30): fails iff `num ≥ P`. -/
def elementNew (num : ℕ) : Option Element :=
  if Psecp ≤ num then none else some ⟨num⟩

/-- `Add for Element`: ring addition modulo `P`
(both operands are mapped into the ring, so the result is the residue of
the sum). -/
def elemAdd (a b : Element) : Element := ⟨(a.num + b.num) % Psecp⟩

/-- `Sub for Element`: ring subtraction modulo `P`, computed on `ℕ` as
`(a + (P - b % P)) % P`, which is the representative of `a - b` mod `P`. -/
def elemSub (a b : Element) : Element :=
  ⟨(a.num + (Psecp - b.num % Psecp)) % Psecp⟩

/-- `Mul for Element`: ring multiplication modulo `P`. -/
def elemMul (a b : Element) : Element := ⟨a.num * b.num % Psecp⟩

/-- The modular inverse as `ibig`'s ring division computes it for an
invertible divisor, modelled by the Fermat power `b ^ (P - 2) % P`
(`P` is prime, so this is the actual inverse of every nonzero residue;
`ibig` panics on the single non-invertible residue `0`, where this model
returns `0`). -/
def elemInvP (b : Element) : ℕ := powMod b.num (Psecp - 2) Psecp

/-- `Div for Element`: ring division modulo `P` (multiplication by the
modular inverse of the divisor). -/
def elemDiv (a b : Element) : Element :=
  ⟨a.num % Psecp * elemInvP b % Psecp⟩

/-- `Element::pow` (`element.rs` lines 32–37): signed modular
exponentiation (`pow_signed`); a negative exponent inverts the base
first. -/
def elemPow (a : Element) (e : ℤ) : Element :=
  if 0 ≤ e then ⟨powMod a.num e.toNat Psecp⟩
  else ⟨powMod (elemInvP a) (-e).toNat Psecp⟩

/-- `Element::sqrt` (`element.rs` lines 39–44): `a ^ ((P + 1) / 4)`. -/
def elemSqrt (a : Element) : Element := elemPow a (((Psecp : ℤ) + 1) / 4)

/-- `Element::is_zero` (`element.rs` lines 46–49): `num.bit_len() == 0`,
i.e. the stored integer is zero. -/
def elemIsZero (a : Element) : Bool := a.num = 0

/-- `Point` (`point.rs`): `none` is the point at infinity (both
coordinates absent); `some (x, y)` is an affine point.  The source struct
permits mixed presence `(Some, None)`, but its constructor rejects it and
every constructed value is of one of these two shapes. -/
abbrev Pt := Option (Element × Element)

/-- The curve membership check performed by `Point::new`
(`point.rs` lines 37–51): `y.pow(2) == b + x.pow(3)` as field elements,
i.e. `y² mod P = (7 + x³ mod P) mod P`. -/
def onCurveCheck (x y : Element) : Bool :=
  powMod y.num 2 Psecp = (7 + powMod x.num 3 Psecp) % Psecp

/-- `Point::new` (`point.rs` lines 29–53): `(None, None)` is the
infinity point, mixed presence is an error, and a coordinate pair is
validated against the curve equation. -/
def pointNew (x y : Option Element) : Option Pt :=
  match x, y with
  | none, none => some none
  | some _, none => none
  | none, some _ => none
  | some x, some y => if onCurveCheck x y then some (some (x, y)) else none

/-- `Point::inf` (`point.rs` lines 56–58). -/
def pointInf : Pt := none

/-- `Point::is_inf` (`point.rs` lines 61–63). -/
def pointIsInf (p : Pt) : Bool := p.isNone

/-- The slope computed by `impl Add for Point` (`point.rs` lines
187–201): the tangent slope `(3·x₁²)/(2·y₁)` when the points coincide,
the secant slope `(y₂−y₁)/(x₂−x₁)` otherwise. -/
def addSlope (x₁ y₁ x₂ y₂ : Element) : Element :=
  if x₁ = x₂ then
    elemDiv (elemMul ⟨3⟩ (elemPow x₁ 2)) (elemMul ⟨2⟩ y₁)
  else
    elemDiv (elemSub y₂ y₁) (elemSub x₂ x₁)

/-- `x₃ = m² − x₁ − x₂` (`point.rs` line 203). -/
def addX3 (x₁ y₁ x₂ y₂ : Element) : Element :=
  elemSub (elemSub (elemPow (addSlope x₁ y₁ x₂ y₂) 2) x₁) x₂

/-- `y₃ = m·(x₁ − x₃) − y₁` (`point.rs` line 204). -/
def addY3 (x₁ y₁ x₂ y₂ : Element) : Element :=
  elemSub (elemMul (addSlope x₁ y₁ x₂ y₂) (elemSub x₁ (addX3 x₁ y₁ x₂ y₂))) y₁

/-- `impl Add for Point` (`point.rs` lines 167–211), with the final
`Self::new(...).unwrap()` modelled as an `Option` (`none` = panic).
Guard order follows the source: infinity cases, additive inverses
(`x₁ = x₂ ∧ y₁ ≠ y₂`), vertical tangent (`y₁ = 0`), then the slope. -/
def ptAddChecked (p q : Pt) : Option Pt :=
  match p, q with
  | none, _ => some q
  | _, none => some p
  | some (x₁, y₁), some (x₂, y₂) =>
    if x₁ = x₂ ∧ y₁ ≠ y₂ then some none
    else if x₁ = x₂ ∧ elemIsZero y₁ then some none
    else pointNew (some (addX3 x₁ y₁ x₂ y₂)) (some (addY3 x₁ y₁ x₂ y₂))

/-- Point addition as the callers observe it on valid points: the
`unwrap` never fires there (proved below), so the panic branch is mapped
to the (unreachable) infinity default. -/
def ptAdd (p q : Pt) : Pt := (ptAddChecked p q).getD none

/-- The generator point `G` (`constants.rs`). -/
def Gpt : Pt := some (⟨Gx⟩, ⟨Gy⟩)

/-- Loop body of `impl Mul<Point> for UBig` (`point.rs` lines 238–264):
double-and-add over the bits of the (already reduced) coefficient.  The
fuel only bounds the number of iterations; the loop exits as soon as the
coefficient reaches zero, so any fuel above the coefficient's bit length
computes the source's value. -/
def scalarMulAux : ℕ → ℕ → Pt → Pt → Pt
  | 0, _, _, result => result
  | f + 1, coefficient, current, result =>
    if coefficient = 0 then result
    else
      let result' := if coefficient % 2 = 1 then ptAdd result current else result
      scalarMulAux f (coefficient / 2) (ptAdd current current) result'

/-- `impl Mul<Point> for UBig`: the coefficient is first reduced modulo
the curve order `N`, then double-and-add runs on it. -/
def scalarMul (k : ℕ) (p : Pt) : Pt :=
  scalarMulAux (k % Nsecp + 1) (k % Nsecp) p none

/-! ### Serialisation (`point.rs` lines 92–149, `signature.rs`) -/

/-- `ibig::UBig::to_be_bytes`: minimal-length big-endian bytes (zero is
the empty vector); fuel-indexed helper, one unit per base-256 digit. -/
def toBeBytesAux : ℕ → ℕ → List ℕ
  | 0, _ => []
  | f + 1, n => if n = 0 then [] else toBeBytesAux f (n / 256) ++ [n % 256]

/-- Minimal big-endian byte string of `n` (`ibig::UBig::to_be_bytes`). -/
def toBeBytes (n : ℕ) : List ℕ := toBeBytesAux (n + 1) n

/-- `ibig::UBig::from_be_bytes`. -/
def fromBeBytes (bs : List ℕ) : ℕ := bs.foldl (fun a b => a * 256 + b) 0

/-- Upper-case hex digit of a value `< 16`, as an ASCII code
(`hex::encode_upper`). -/
def hexDigitUpper (d : ℕ) : ℕ := if d < 10 then 48 + d else 55 + d

/-- `hex::encode_upper`: two upper-case hex characters per byte,
returned as the ASCII codes of the produced string. -/
def encodeUpper (bs : List ℕ) : List ℕ :=
  (bs.map fun b => [hexDigitUpper (b / 16), hexDigitUpper (b % 16)]).flatten

/-- `Point::serialise` (`point.rs` lines 92–110).  The accessors
`x()`/`y()` unwrap and hence panic on the infinity point (`none`).
The parity test mirrors the source: `y` is even iff `trailing_zeros()`
is `None` (y = 0) or positive. -/
def ptSerialise (p : Pt) (compressed : Bool) : Option (List ℕ) :=
  match p with
  | none => none
  | some (x, y) =>
    if compressed then
      let pre := if y.num % 2 = 0 then 2 else 3
      some (encodeUpper (pre :: toBeBytes x.num))
    else
      some (encodeUpper (4 :: (toBeBytes x.num ++ toBeBytes y.num)))

/-- Value of one ASCII character as a hex digit, as
`ibig::UBig::from_str_radix(_, 16)` accepts it. -/
def hexVal (c : ℕ) : Option ℕ :=
  if 48 ≤ c ∧ c ≤ 57 then some (c - 48)
  else if 65 ≤ c ∧ c ≤ 70 then some (c - 55)
  else if 97 ≤ c ∧ c ≤ 102 then some (c - 87)
  else none

/-- Parse a hex string (given as ASCII codes) to a number; fails on a
non-hex character or the empty string. -/
def hexToNat (cs : List ℕ) : Option ℕ :=
  if cs.isEmpty then none
  else cs.foldl (fun acc c => acc.bind fun a => (hexVal c).map fun v => a * 16 + v)
    (some 0)

/-- The legacy constructor `Element::new(&str, radix)` that `point.rs`
calls with radix 16: parse the string as a hex number, then apply the
field range check. -/
def elementNewHex (cs : List ℕ) : Option Element :=
  (hexToNat cs).bind elementNew

/-- `Point::parse` (`point.rs` lines 113–149), operating on the ASCII
bytes of the input string (`sec_hex.as_bytes()`).  Note the source
compares the raw first byte against `0x04`/`0x02` (not against the
ASCII characters `'0'`, `'4'`, …), and slices 32 *characters* for each
coordinate.  Slice panics (string too short) and constructor errors are
`none`. -/
def ptParse (secHex : List ℕ) : Option Pt :=
  match secHex with
  | [] => none
  | pre :: _ =>
    if pre = 4 then
      if 65 ≤ secHex.length then
        match elementNewHex ((secHex.drop 1).take 32),
            elementNewHex ((secHex.drop 33).take 32) with
        | some x, some y => some (some (x, y))
        | _, _ => none
      else none
    else
      if 33 ≤ secHex.length then
        match elementNewHex ((secHex.drop 1).take 32) with
        | none => none
        | some x =>
          let beta := elemSqrt (elemAdd ⟨7⟩ (elemPow x 3))
          match elementNew (Psecp - beta.num) with
          | none => none
          | some negBeta =>
            let evenY := if beta.num % 2 = 0 then beta else negBeta
            let oddY := if beta.num % 2 = 0 then negBeta else beta
            if pre = 2 then pointNew (some x) (some evenY)
            else pointNew (some x) (some oddY)
      else none

/-! ### Signatures and keys (`signature.rs`, `keys.rs`) -/

/-- `Signature` (`signature.rs`): the pair `(r, s)` of unsigned
integers. -/
structure Sig where
  r : ℕ
  s : ℕ
deriving DecidableEq

/-- `Signature::new` (`signature.rs`). -/
def sigNew (r s : ℕ) : Sig := ⟨r, s⟩

/-- Ring division modulo the order `N` as `verify`/`sign` use it
(`a / b` in `N_RING`): both operands reduced into the ring, the divisor
inverted (Fermat power; `N` is prime), the product reduced. -/
def divModN (a b : ℕ) : ℕ :=
  a % Nsecp * powMod (b % Nsecp) (Nsecp - 2) Nsecp % Nsecp

/-- The x-accessor `Point::x` (`point.rs` lines 83–85): unwraps, hence
panics (`none`) on the infinity point. -/
def ptX (p : Pt) : Option ℕ := p.map fun c => c.1.num

/-- `Point::verify` (`point.rs` lines 68–81): `u = z/s`, `v = r/s`
(mod `N`), `R = u·G + v·self`, then compares `R.x.unwrap().num()`
against `r` — the unwrap panics (`none`) when `R` is the infinity
point, and the x-coordinate is compared *without* reduction modulo
`N`. -/
def pointVerify (pubkey : Pt) (z : ℕ) (sig : Sig) : Option Bool :=
  let u := divModN z sig.s
  let v := divModN sig.r sig.s
  let ug := scalarMul u Gpt
  let vp := scalarMul v pubkey
  let rPt := ptAdd ug vp
  (ptX rPt).map fun x => x = sig.r

/-- The reduction `deterministic_k` applies to the message hash before
hashing it (`keys.rs` lines 45–52): a *single* subtraction of the order,
applied only when `z > N` strictly. -/
def zReduced (z : ℕ) : ℕ := if Nsecp < z then z - Nsecp else z

/-- The retry loop of `PrivateKey::deterministic_k`
(`keys.rs` lines 90–108), parameterised by the abstract HMAC-SHA-256
collaborator and fuel for the unbounded loop (`none` = fuel ran out). -/
def detKLoop (hmac : List ℕ → List ℕ → List ℕ) :
    ℕ → List ℕ → List ℕ → Option ℕ
  | 0, _, _ => none
  | f + 1, k, v =>
    let v' := hmac k v
    let cand := fromBeBytes v'
    if 1 ≤ cand ∧ cand < Nsecp then some cand
    else
      let k' := hmac k (v' ++ [0])
      detKLoop hmac f k' (hmac k' v')

/-- `PrivateKey::deterministic_k` (`keys.rs` lines 42–108): RFC 6979
style nonce derivation specialised to HMAC-SHA-256; `e` and the
(possibly reduced) hash are serialised with `to_be_bytes`
(minimal-length big-endian). -/
def detK (hmac : List ℕ → List ℕ → List ℕ) (fuel : ℕ) (e z : ℕ) :
    Option ℕ :=
  let zBytes := toBeBytes (zReduced z)
  let eBytes := toBeBytes e
  let k0 := List.replicate 32 0
  let v0 := List.replicate 32 1
  let k1 := hmac k0 (v0 ++ [0] ++ eBytes ++ zBytes)
  let v1 := hmac k1 v0
  let k2 := hmac k1 (v1 ++ [1] ++ eBytes ++ zBytes)
  let v2 := hmac k2 v1
  detKLoop hmac fuel k2 v2

/-- The raw signature scalar `s = (z + r·e) / k` in the order ring
(`keys.rs` line 33–35), before low-s normalisation. -/
def rawS (e z k r : ℕ) : ℕ := divModN (z + r * e) k

/-- `PrivateKey::new` (`keys.rs` lines 21–26): no validation at all;
stores the secret and the public point `e·G`. -/
def privateKeyNew (e : ℕ) : Pt × ℕ := (scalarMul e Gpt, e)

/-- `PrivateKey::sign` (`keys.rs` lines 29–39): derive `k`, take
`r = (k·G).x()` (unwrap: panics on infinity), compute
`s = (z + r·e)/k mod N`, then replace `s` by `N - s` when
`s > N/2`. -/
def pkSign (hmac : List ℕ → List ℕ → List ℕ) (fuel : ℕ) (e z : ℕ) :
    Option Sig :=
  (detK hmac fuel e z).bind fun k =>
    (ptX (scalarMul k Gpt)).map fun r =>
      let s := rawS e z k r
      sigNew r (if Nsecp / 2 < s then Nsecp - s else s)

/-- The trivial HMAC stand-in used for concrete witness evaluations:
every digest is the single byte `0x01`, so the nonce loop accepts the
candidate `1` immediately. -/
def hmacOne : List ℕ → List ℕ → List ℕ := fun _ _ => [1]

/-- Validity of a point value as the constructor guarantees it: the
infinity point, or coordinates that are in field range and satisfy the
curve-membership check. -/
def ptValidB (p : Pt) : Bool :=
  match p with
  | none => true
  | some (x, y) =>
    decide (x.num < Psecp) && decide (y.num < Psecp) && onCurveCheck x y

def PtValid (p : Pt) : Prop := ptValidB p = true

instance (p : Pt) : Decidable (PtValid p) := by
  unfold PtValid; infer_instance

/-- The affine point `(1, √8)`: a curve point with a one-byte
x-coordinate, exhibiting the missing fixed-width padding in
`Point::serialise`. -/
def smallXPoint : Pt :=
  some (⟨1⟩,
    ⟨29896722852569046015560700294576055776214335159245303116488692907525646231534⟩)

/-- The negation `-G = (Gx, P - Gy)` of the generator, a valid public
key for which `verify` can be driven into the identity point `R`. -/
def negGpt : Pt := some (⟨Gx⟩, ⟨Psecp - Gy⟩)

/-- The ASCII bytes of an uncompressed-style SEC input whose first byte
is the raw byte `0x04` (the only way to reach the `0x04` branch of
`Point::parse`), carrying hex characters decoding to `x = 1`, `y = 1` —
a pair that is not on the curve. -/
def badSec04 : List ℕ :=
  4 :: (List.replicate 31 48 ++ [49] ++ List.replicate 31 48 ++ [49])

/-- The secp256k1 curve `y² = x³ + 7` as a Mathlib Weierstrass curve
over the field `ZMod Psecp`, used to transfer the group-law closure
argument. -/
def Wsecp : WeierstrassCurve.Affine (ZMod Psecp) :=
  { a₁ := 0, a₂ := 0, a₃ := 0, a₄ := 0, a₆ := 7 }

/-! ## Supporting lemmas -/

theorem Psecp_eq : Psecp = 2 ^ 256 - 2 ^ 32 - 977 := by decide

theorem Psecp_pos : 0 < Psecp := by decide

theorem Nsecp_pos : 0 < Nsecp := by decide

theorem powModAux_eq (m b : ℕ) :
    ∀ f e, e ≤ f → powModAux f b e m = b ^ e % m := by
  intro f
  induction f with
  | zero =>
    intro e he
    interval_cases e
    simp [powModAux]
  | succ f ih =>
    intro e he
    by_cases he0 : e = 0
    · subst he0; simp [powModAux]
    · have hdiv : e / 2 ≤ f := by omega
      have hrec := ih (e / 2) hdiv
      have h1 : b ^ (e / 2) % m ≡ b ^ (e / 2) [MOD m] := Nat.mod_modEq _ _
      have hsq : b ^ (e / 2) % m * (b ^ (e / 2) % m) % m
          ≡ b ^ (e / 2) * b ^ (e / 2) [MOD m] := (Nat.mod_modEq _ _).trans (h1.mul h1)
      by_cases hpar : e % 2 = 1
      · have hstep : powModAux (f + 1) b e m
            = powModAux f b (e / 2) m * powModAux f b (e / 2) m % m * (b % m) % m := by
          simp [powModAux, he0, hpar]
        rw [hstep, hrec]
        have h3 := hsq.mul (Nat.mod_modEq b m)
        have h4 : b ^ (e / 2) * b ^ (e / 2) * b = b ^ e := by
          have h5 : e / 2 + e / 2 + 1 = e := by omega
          calc b ^ (e / 2) * b ^ (e / 2) * b = b ^ (e / 2 + e / 2 + 1) := by ring
            _ = b ^ e := by rw [h5]
        rw [h4] at h3
        exact h3
      · have hstep : powModAux (f + 1) b e m
            = powModAux f b (e / 2) m * powModAux f b (e / 2) m % m := by
          simp [powModAux, he0, hpar]
        rw [hstep, hrec]
        have h4 : b ^ (e / 2) * b ^ (e / 2) = b ^ e := by
          have h5 : e / 2 + e / 2 = e := by omega
          calc b ^ (e / 2) * b ^ (e / 2) = b ^ (e / 2 + e / 2) := by ring
            _ = b ^ e := by rw [h5]
        have h3 := hsq
        rw [h4] at h3
        calc b ^ (e / 2) % m * (b ^ (e / 2) % m) % m
            = b ^ (e / 2) % m * (b ^ (e / 2) % m) % m % m :=
              (Nat.mod_mod_of_dvd _ dvd_rfl).symm
          _ = b ^ e % m := h3

theorem powMod_eq (b e m : ℕ) : powMod b e m = b ^ e % m :=
  powModAux_eq m b (e + 1) e (Nat.le_succ e)

theorem powMod_lt (b e : ℕ) {m : ℕ} (hm : 0 < m) : powMod b e m < m := by
  rw [powMod_eq]; exact Nat.mod_lt _ hm

theorem rawS_lt (e z k r : ℕ) : rawS e z k r < Nsecp :=
  Nat.mod_lt _ Nsecp_pos

theorem zmodPow_natCast_powMod (a e n : ℕ) :
    ((powMod a e n : ℕ) : ZMod n) = (a : ZMod n) ^ e := by
  rw [powMod_eq, ZMod.natCast_mod, Nat.cast_pow]

theorem zmodPow_eq_one_of_powMod (a e : ℕ) {n : ℕ}
    (h : powMod a e n = 1) : ((a : ℕ) : ZMod n) ^ e = 1 := by
  rw [← zmodPow_natCast_powMod, h, Nat.cast_one]

theorem zmodPow_ne_one_of_powMod {n : ℕ} (hn : 1 < n) (a e : ℕ)
    (h : powMod a e n ≠ 1) : ((a : ℕ) : ZMod n) ^ e ≠ 1 := by
  intro hcontra
  apply h
  have h2 : ((powMod a e n : ℕ) : ZMod n) = ((1 : ℕ) : ZMod n) := by
    rw [zmodPow_natCast_powMod, hcontra, Nat.cast_one]
  have hlt : powMod a e n < n := powMod_lt _ _ (by omega)
  have h3 := congrArg ZMod.val h2
  rwa [ZMod.val_cast_of_lt hlt, ZMod.val_cast_of_lt hn] at h3

theorem prime_divisor_mem {ps : List ℕ} (hps : ∀ p ∈ ps, Nat.Prime p)
    {q : ℕ} (hq : q.Prime) (hdvd : q ∣ ps.prod) : q ∈ ps := by
  induction ps with
  | nil =>
    rw [List.prod_nil, Nat.dvd_one] at hdvd
    exact absurd hdvd hq.ne_one
  | cons p ps ih =>
    rw [List.prod_cons] at hdvd
    rcases (Nat.Prime.dvd_mul hq).mp hdvd with h | h
    · have hpp : Nat.Prime p := hps p (List.mem_cons_self p ps)
      have := (Nat.prime_dvd_prime_iff_eq hq hpp).mp h
      exact this ▸ List.mem_cons_self q ps
    · exact List.mem_cons_of_mem _
        (ih (fun r hr => hps r (List.mem_cons_of_mem _ hr)) h)

/-- Certified Lucas primality test: `a` is a primitive-root witness for
`p`, and `ps` lists the prime factors of `p - 1` with multiplicity. -/
theorem pratt_cert (p a : ℕ) (ps : List ℕ)
    (hp : 1 < p)
    (hprod : p - 1 = ps.prod)
    (hps : ∀ q ∈ ps, Nat.Prime q)
    (hpow : powMod a (p - 1) p = 1)
    (hne : ∀ q ∈ ps, powMod a ((p - 1) / q) p ≠ 1) :
    Nat.Prime p := by
  apply lucas_primality p ((a : ℕ) : ZMod p)
  · exact zmodPow_eq_one_of_powMod a (p - 1) hpow
  · intro q hq hdvd
    rw [hprod] at hdvd
    have hmem : q ∈ ps := prime_divisor_mem hps hq hdvd
    exact zmodPow_ne_one_of_powMod hp a ((p - 1) / q) (hne q hmem)

theorem prime_13331831 : Nat.Prime 13331831 := by
  apply pratt_cert 13331831 13 [2, 5, 971, 1373] (by decide) (by decide)
  · intro q hq
    fin_cases hq
    · exact Nat.prime_two
    · norm_num
    · norm_num
    · norm_num
  · decide
  · decide

theorem prime_1206781 : Nat.Prime 1206781 := by
  apply pratt_cert 1206781 10 [2, 2, 3, 5, 20113] (by decide) (by decide)
  · intro q hq
    fin_cases hq
    · exact Nat.prime_two
    · exact Nat.prime_two
    · exact Nat.prime_three
    · norm_num
    · norm_num
  · decide
  · decide

theorem prime_7240687 : Nat.Prime 7240687 := by
  apply pratt_cert 7240687 3 [2, 3, 1206781] (by decide) (by decide)
  · intro q hq
    fin_cases hq
    · exact Nat.prime_two
    · exact Nat.prime_three
    · exact prime_1206781
  · decide
  · decide

theorem prime_107590001 : Nat.Prime 107590001 := by
  apply pratt_cert 107590001 3 [2, 2, 2, 2, 5, 5, 5, 5, 7, 29, 53]
    (by decide) (by decide)
  · intro q hq
    fin_cases hq
    · exact Nat.prime_two
    · exact Nat.prime_two
    · exact Nat.prime_two
    · exact Nat.prime_two
    · norm_num
    · norm_num
    · norm_num
    · norm_num
    · norm_num
    · norm_num
    · norm_num
  · decide
  · decide

theorem prime_q5 : Nat.Prime 173378833005251801 := by
  apply pratt_cert 173378833005251801 6 [2, 2, 2, 5, 5, 2621, 24809, 13331831]
    (by decide) (by decide)
  · intro q hq
    fin_cases hq
    · exact Nat.prime_two
    · exact Nat.prime_two
    · exact Nat.prime_two
    · norm_num
    · norm_num
    · norm_num
    · norm_num
    · exact prime_13331831
  · decide
  · decide

theorem prime_q4 : Nat.Prime 22149492674086928081353 := by
  apply pratt_cert 22149492674086928081353 5 [2, 2, 2, 3, 5323, 173378833005251801]
    (by decide) (by decide)
  · intro q hq
    fin_cases hq
    · exact Nat.prime_two
    · exact Nat.prime_two
    · exact Nat.prime_two
    · exact Nat.prime_three
    · norm_num
    · exact prime_q5
  · decide
  · decide

theorem prime_q2 : Nat.Prime 132896956044521568488119 := by
  apply pratt_cert 132896956044521568488119 6 [2, 3, 22149492674086928081353]
    (by decide) (by decide)
  · intro q hq
    fin_cases hq
    · exact Nat.prime_two
    · exact Nat.prime_three
    · exact prime_q4
  · decide
  · decide

theorem prime_q3 : Nat.Prime 255515944373312847190720520512484175977 := by
  apply pratt_cert 255515944373312847190720520512484175977 3
    [2, 2, 2, 7, 7, 11, 1627, 2657, 4423, 41201, 96557, 7240687, 107590001]
    (by decide) (by decide)
  · intro q hq
    fin_cases hq
    · exact Nat.prime_two
    · exact Nat.prime_two
    · exact Nat.prime_two
    · norm_num
    · norm_num
    · norm_num
    · norm_num
    · norm_num
    · norm_num
    · norm_num
    · norm_num
    · exact prime_7240687
    · exact prime_107590001
  · decide
  · decide

theorem prime_q1 :
    Nat.Prime 205115282021455665897114700593932402728804164701536103180137503955397371 := by
  apply pratt_cert
    205115282021455665897114700593932402728804164701536103180137503955397371 10
    [2, 3, 5, 29, 29, 31, 7723, 132896956044521568488119,
      255515944373312847190720520512484175977]
    (by decide) (by decide)
  · intro q hq
    fin_cases hq
    · exact Nat.prime_two
    · exact Nat.prime_three
    · norm_num
    · norm_num
    · norm_num
    · norm_num
    · norm_num
    · exact prime_q2
    · exact prime_q3
  · decide
  · decide

/-- The secp256k1 field prime really is prime (Pratt/Lucas certificate). -/
theorem Psecp_prime : Nat.Prime Psecp := by
  apply pratt_cert Psecp 3
    [2, 3, 7, 13441,
      205115282021455665897114700593932402728804164701536103180137503955397371]
    (by decide) (by decide)
  · intro q hq
    fin_cases hq
    · exact Nat.prime_two
    · exact Nat.prime_three
    · norm_num
    · norm_num
    · exact prime_q1
  · decide
  · decide

instance : Fact (Nat.Prime Psecp) := ⟨Psecp_prime⟩

theorem natCast_num_inj {a b : ℕ} (ha : a < Psecp) (hb : b < Psecp)
    (h : (a : ZMod Psecp) = (b : ZMod Psecp)) : a = b := by
  have h2 := congrArg ZMod.val h
  rwa [ZMod.val_cast_of_lt ha, ZMod.val_cast_of_lt hb] at h2

theorem elemAdd_cast (a b : Element) :
    ((elemAdd a b).num : ZMod Psecp) = (a.num : ZMod Psecp) + (b.num : ZMod Psecp) := by
  show (((a.num + b.num) % Psecp : ℕ) : ZMod Psecp) = _
  rw [ZMod.natCast_mod, Nat.cast_add]

theorem elemSub_cast (a b : Element) :
    ((elemSub a b).num : ZMod Psecp) = (a.num : ZMod Psecp) - (b.num : ZMod Psecp) := by
  have hle : b.num % Psecp ≤ Psecp := le_of_lt (Nat.mod_lt _ Psecp_pos)
  show (((a.num + (Psecp - b.num % Psecp)) % Psecp : ℕ) : ZMod Psecp) = _
  rw [ZMod.natCast_mod, Nat.cast_add, Nat.cast_sub hle, ZMod.natCast_mod,
    ZMod.natCast_self]
  ring

theorem elemMul_cast (a b : Element) :
    ((elemMul a b).num : ZMod Psecp) = (a.num : ZMod Psecp) * (b.num : ZMod Psecp) := by
  show ((a.num * b.num % Psecp : ℕ) : ZMod Psecp) = _
  rw [ZMod.natCast_mod, Nat.cast_mul]

theorem zmod_pow_card_sub_two (x : ZMod Psecp) : x ^ (Psecp - 2) = x⁻¹ := by
  by_cases hx : x = 0
  · rw [hx, inv_zero, zero_pow (by decide : Psecp - 2 ≠ 0)]
  · have h1 : x ^ (Psecp - 2) * x = 1 := by
      have h2 : Psecp - 2 + 1 = Psecp - 1 := by decide
      rw [← pow_succ, h2, ZMod.pow_card_sub_one_eq_one hx]
    exact eq_inv_of_mul_eq_one_left h1

theorem elemInvP_cast (b : Element) :
    ((elemInvP b : ℕ) : ZMod Psecp) = (b.num : ZMod Psecp)⁻¹ := by
  rw [elemInvP, zmodPow_natCast_powMod, zmod_pow_card_sub_two]

theorem elemDiv_cast (a b : Element) :
    ((elemDiv a b).num : ZMod Psecp) = (a.num : ZMod Psecp) / (b.num : ZMod Psecp) := by
  show ((a.num % Psecp * elemInvP b % Psecp : ℕ) : ZMod Psecp) = _
  rw [ZMod.natCast_mod, Nat.cast_mul, ZMod.natCast_mod, elemInvP_cast,
    div_eq_mul_inv]

theorem elemPow_two_cast (a : Element) :
    ((elemPow a 2).num : ZMod Psecp) = (a.num : ZMod Psecp) ^ 2 := by
  rw [elemPow, if_pos (by norm_num : (0 : ℤ) ≤ 2)]
  show ((powMod a.num (2 : ℤ).toNat Psecp : ℕ) : ZMod Psecp) = _
  rw [zmodPow_natCast_powMod]
  rfl

theorem onCurve_iff (x y : Element) :
    onCurveCheck x y = true ↔
      (y.num : ZMod Psecp) ^ 2 = (x.num : ZMod Psecp) ^ 3 + 7 := by
  rw [onCurveCheck, decide_eq_true_eq]
  constructor
  · intro h
    have hc := congrArg (fun t : ℕ => (t : ZMod Psecp)) h
    simp only at hc
    rw [zmodPow_natCast_powMod, ZMod.natCast_mod, Nat.cast_add,
      zmodPow_natCast_powMod] at hc
    push_cast at hc
    rw [hc]
    ring
  · intro h
    apply natCast_num_inj (powMod_lt _ _ Psecp_pos) (Nat.mod_lt _ Psecp_pos)
    rw [zmodPow_natCast_powMod, ZMod.natCast_mod, Nat.cast_add,
      zmodPow_natCast_powMod]
    push_cast
    rw [h]
    ring

theorem wsecp_equation_iff (x y : ZMod Psecp) :
    Wsecp.Equation x y ↔ y ^ 2 = x ^ 3 + 7 := by
  rw [WeierstrassCurve.Affine.equation_iff]
  constructor <;> intro h <;>
    · rw [show Wsecp.a₁ = 0 from rfl, show Wsecp.a₂ = 0 from rfl,
        show Wsecp.a₃ = 0 from rfl, show Wsecp.a₄ = 0 from rfl,
        show Wsecp.a₆ = 7 from rfl] at *
      linear_combination h

theorem wsecp_negY (x y : ZMod Psecp) : Wsecp.negY x y = -y := by
  rw [WeierstrassCurve.Affine.negY, show Wsecp.a₁ = 0 from rfl,
    show Wsecp.a₃ = 0 from rfl]
  ring

theorem two_ne_zero_zmodP : (2 : ZMod Psecp) ≠ 0 := by
  intro h
  have h2 : ((2 : ℕ) : ZMod Psecp) = ((0 : ℕ) : ZMod Psecp) := by push_cast; exact h
  have := natCast_num_inj (by decide) Psecp_pos h2
  omega

/-- Core of the closure argument for `Point`'s addition law: whenever
the guard conditions of the affine branch are passed by two valid
coordinate pairs, the computed `(x₃, y₃)` satisfies the curve
equation. -/
theorem addClosed (x₁ y₁ x₂ y₂ : Element)
    (hx₁ : x₁.num < Psecp) (hy₁ : y₁.num < Psecp)
    (hx₂ : x₂.num < Psecp) (hy₂ : y₂.num < Psecp)
    (h₁ : onCurveCheck x₁ y₁ = true) (h₂ : onCurveCheck x₂ y₂ = true)
    (hg₁ : ¬(x₁ = x₂ ∧ y₁ ≠ y₂)) (hg₂ : ¬(x₁ = x₂ ∧ elemIsZero y₁ = true)) :
    onCurveCheck (addX3 x₁ y₁ x₂ y₂) (addY3 x₁ y₁ x₂ y₂) = true := by
  rw [onCurve_iff] at h₁ h₂ ⊢
  have hE₁ : Wsecp.Equation (x₁.num : ZMod Psecp) (y₁.num : ZMod Psecp) :=
    (wsecp_equation_iff _ _).mpr h₁
  have hE₂ : Wsecp.Equation (x₂.num : ZMod Psecp) (y₂.num : ZMod Psecp) :=
    (wsecp_equation_iff _ _).mpr h₂
  -- the two ways the guards can be passed
  by_cases hx : x₁ = x₂
  · -- doubling: y₁ = y₂ and y₁ ≠ 0
    have hy12 : y₁ = y₂ := by
      by_contra hne
      exact hg₁ ⟨hx, hne⟩
    have hynz : y₁.num ≠ 0 := by
      intro h0
      exact hg₂ ⟨hx, by rw [elemIsZero, h0]; rfl⟩
    subst hx
    subst hy12
    have hYnz : (y₁.num : ZMod Psecp) ≠ 0 := by
      intro h0
      apply hynz
      exact natCast_num_inj hy₁ Psecp_pos (by rw [h0]; push_cast; rfl)
    have hxy : (x₁.num : ZMod Psecp) = (x₁.num : ZMod Psecp) →
        (y₁.num : ZMod Psecp) ≠ Wsecp.negY (x₁.num : ZMod Psecp) (y₁.num : ZMod Psecp) := by
      intro _
      rw [wsecp_negY]
      intro hcontra
      have h2y : (2 : ZMod Psecp) * (y₁.num : ZMod Psecp) = 0 := by
        linear_combination hcontra
      rcases mul_eq_zero.mp h2y with h | h
      · exact two_ne_zero_zmodP h
      · exact hYnz h
    have hM : ((addSlope x₁ y₁ x₁ y₁).num : ZMod Psecp)
        = Wsecp.slope (x₁.num : ZMod Psecp) (x₁.num : ZMod Psecp)
            (y₁.num : ZMod Psecp) (y₁.num : ZMod Psecp) := by
      rw [addSlope, if_pos rfl, WeierstrassCurve.Affine.slope_of_Y_ne rfl (hxy rfl)]
      rw [elemDiv_cast, elemMul_cast, elemMul_cast, elemPow_two_cast, wsecp_negY,
        show Wsecp.a₁ = 0 from rfl, show Wsecp.a₂ = 0 from rfl,
        show Wsecp.a₄ = 0 from rfl]
      show ((3 : ℕ) : ZMod Psecp) * _ / (((2 : ℕ) : ZMod Psecp) * _) = _
      push_cast
      ring_nf
    have hEadd := WeierstrassCurve.Affine.equation_add hE₁ hE₂ hxy
    rw [wsecp_equation_iff] at hEadd
    have hX3 : ((addX3 x₁ y₁ x₁ y₁).num : ZMod Psecp)
        = Wsecp.addX (x₁.num : ZMod Psecp) (x₁.num : ZMod Psecp)
            (Wsecp.slope (x₁.num : ZMod Psecp) (x₁.num : ZMod Psecp)
              (y₁.num : ZMod Psecp) (y₁.num : ZMod Psecp)) := by
      rw [addX3, elemSub_cast, elemSub_cast, elemPow_two_cast, hM,
        WeierstrassCurve.Affine.addX, show Wsecp.a₁ = 0 from rfl,
        show Wsecp.a₂ = 0 from rfl]
      ring
    have hY3 : ((addY3 x₁ y₁ x₁ y₁).num : ZMod Psecp)
        = Wsecp.addY (x₁.num : ZMod Psecp) (x₁.num : ZMod Psecp)
            (y₁.num : ZMod Psecp)
            (Wsecp.slope (x₁.num : ZMod Psecp) (x₁.num : ZMod Psecp)
              (y₁.num : ZMod Psecp) (y₁.num : ZMod Psecp)) := by
      rw [addY3, elemSub_cast, elemMul_cast, elemSub_cast, hM, hX3,
        WeierstrassCurve.Affine.addY, WeierstrassCurve.Affine.negAddY, wsecp_negY]
      ring
    rw [hX3, hY3]
    exact hEadd
  · -- distinct x-coordinates
    have hXne : (x₁.num : ZMod Psecp) ≠ (x₂.num : ZMod Psecp) := by
      intro hcontra
      apply hx
      have := natCast_num_inj hx₁ hx₂ hcontra
      cases x₁
      cases x₂
      simp_all
    have hxy : (x₁.num : ZMod Psecp) = (x₂.num : ZMod Psecp) →
        (y₁.num : ZMod Psecp) ≠ Wsecp.negY (x₂.num : ZMod Psecp) (y₂.num : ZMod Psecp) :=
      fun hcontra => absurd hcontra hXne
    have hM : ((addSlope x₁ y₁ x₂ y₂).num : ZMod Psecp)
        = Wsecp.slope (x₁.num : ZMod Psecp) (x₂.num : ZMod Psecp)
            (y₁.num : ZMod Psecp) (y₂.num : ZMod Psecp) := by
      rw [addSlope, if_neg hx, WeierstrassCurve.Affine.slope_of_X_ne hXne]
      rw [elemDiv_cast, elemSub_cast, elemSub_cast]
      rw [← neg_sub (y₁.num : ZMod Psecp) (y₂.num : ZMod Psecp),
        ← neg_sub (x₁.num : ZMod Psecp) (x₂.num : ZMod Psecp), neg_div_neg_eq]
    have hEadd := WeierstrassCurve.Affine.equation_add hE₁ hE₂ hxy
    rw [wsecp_equation_iff] at hEadd
    have hX3 : ((addX3 x₁ y₁ x₂ y₂).num : ZMod Psecp)
        = Wsecp.addX (x₁.num : ZMod Psecp) (x₂.num : ZMod Psecp)
            (Wsecp.slope (x₁.num : ZMod Psecp) (x₂.num : ZMod Psecp)
              (y₁.num : ZMod Psecp) (y₂.num : ZMod Psecp)) := by
      rw [addX3, elemSub_cast, elemSub_cast, elemPow_two_cast, hM,
        WeierstrassCurve.Affine.addX, show Wsecp.a₁ = 0 from rfl,
        show Wsecp.a₂ = 0 from rfl]
      ring
    have hY3 : ((addY3 x₁ y₁ x₂ y₂).num : ZMod Psecp)
        = Wsecp.addY (x₁.num : ZMod Psecp) (x₂.num : ZMod Psecp)
            (y₁.num : ZMod Psecp)
            (Wsecp.slope (x₁.num : ZMod Psecp) (x₂.num : ZMod Psecp)
              (y₁.num : ZMod Psecp) (y₂.num : ZMod Psecp)) := by
      rw [addY3, elemSub_cast, elemMul_cast, elemSub_cast, hM, hX3,
        WeierstrassCurve.Affine.addY, WeierstrassCurve.Affine.negAddY, wsecp_negY]
      ring
    rw [hX3, hY3]
    exact hEadd

theorem toBeBytes_small {n : ℕ} (h1 : 0 < n) (h2 : n < 256) :
    toBeBytes n = [n] := by
  cases n with
  | zero => omega
  | succ m =>
    have hd : (m + 1) / 256 = 0 := by omega
    have hm : (m + 1) % 256 = m + 1 := by omega
    simp [toBeBytes, toBeBytesAux, hd, hm]

/-! ## Claims -/

/-- C1 (code_bug): the spec requires `verify` to treat an identity
result point `R = u·G + v·P` as a verification failure (returning
`false`), but the code unconditionally unwraps `R`'s x-coordinate, so it
panics there instead.  Concretely, for the valid public key `-G` with
`z = 1` and signature `(r, s) = (1, 1)` we get `u = v = 1` and
`R = G + (-G) =` identity, and `verify` panics (`none`), not `false`. -/
theorem c1_verify_identity_panics :
    PtValid negGpt ∧ pointVerify negGpt 1 (sigNew 1 1) = none := by decide

/-- C2 (code_bug): `serialise` uses `ibig`'s minimal-length
`to_be_bytes`, not 32-byte fixed-width fields.  On the valid curve point
`(1, √8)` the uncompressed serialisation has 68 hex characters (not the
claimed 130) and the compressed one has 4 (not the claimed 66). -/
theorem c2_serialise_not_fixed_width :
    PtValid smallXPoint
    ∧ (ptSerialise smallXPoint false).map List.length = some 68
    ∧ (ptSerialise smallXPoint true).map List.length = some 4 := by decide

/-- C3 (code_bug): the SEC round trip fails.  `parse` compares the
first ASCII character of the hex string against the raw byte `0x04`
(never equal to the character `'0'`) and slices 32 characters — 16
bytes — per coordinate, so `parse (serialise G uncompressed)` does not
return `G`. -/
theorem c3_sec_round_trip_fails :
    PtValid Gpt ∧ ((ptSerialise Gpt false).bind ptParse) ≠ some Gpt := by
  decide

/-- C4 (code_bug): in the `0x04` branch `parse` builds the `Point`
record directly instead of going through the validating constructor
`Point::new`.  On an input with prefix byte `0x04` whose coordinates
decode to `(1, 1)` — not on the curve — `parse` happily returns the
off-curve point instead of failing with `InvalidPoint`. -/
theorem c4_parse_uncompressed_skips_validation :
    ptParse badSec04 = some (some (⟨1⟩, ⟨1⟩))
    ∧ onCurveCheck ⟨1⟩ ⟨1⟩ = false := by decide

/-- C5 (confirmed): `Element::new` fails exactly on out-of-range input,
and every arithmetic operation (including `pow` and `sqrt`) lands back
in `[0, P)`. -/
theorem c5_element_range_invariant :
    ∀ (n : ℕ) (a b : Element) (e : ℤ),
      ((elementNew n).isSome ↔ n < Psecp)
      ∧ (elemAdd a b).num < Psecp
      ∧ (elemSub a b).num < Psecp
      ∧ (elemMul a b).num < Psecp
      ∧ (b.num ≠ 0 → (elemDiv a b).num < Psecp)
      ∧ (elemPow a e).num < Psecp
      ∧ (elemSqrt a).num < Psecp := by
  intro n a b e
  refine ⟨?_, Nat.mod_lt _ Psecp_pos, Nat.mod_lt _ Psecp_pos,
    Nat.mod_lt _ Psecp_pos, fun _ => Nat.mod_lt _ Psecp_pos, ?_, ?_⟩
  · by_cases h : Psecp ≤ n
    · simp only [elementNew, if_pos h, Option.isSome_none,
        Bool.false_eq_true, false_iff]
      omega
    · simp only [elementNew, if_neg h, Option.isSome_some, true_iff]
      omega
  · unfold elemPow
    split <;> exact powMod_lt _ _ Psecp_pos
  · unfold elemSqrt elemPow
    split <;> simpa using powMod_lt _ _ Psecp_pos

theorem c5_element_range_invariant_witness :
    (elemDiv ⟨2⟩ ⟨7⟩).num < Psecp :=
  (c5_element_range_invariant 0 ⟨2⟩ ⟨7⟩ 0).2.2.2.2.1 (by decide)

/-- C7 (confirmed): signing is deterministic — the embedding of
`sign`/`deterministic_k` is a pure function of the secret `e`, the hash
`z` and the (fixed) HMAC-SHA-256 collaborator; there is no other input,
so two runs on the same `(e, z)` produce bit-identical nonces and
signatures. -/
theorem c7_sign_deterministic :
    ∀ (hmac : List ℕ → List ℕ → List ℕ) (fuel e z : ℕ),
      detK hmac fuel e z = detK hmac fuel e z
      ∧ pkSign hmac fuel e z = pkSign hmac fuel e z :=
  fun _ _ _ _ => ⟨rfl, rfl⟩

/-- C8 (corrected, counterexample): the claim says `z ≥ N` is reduced
modulo `N` (so `z = N` becomes `0`) and that the serialisations are
fixed-width.  The code only subtracts `N` once and only when `z > N`
strictly, so `z = N` is hashed unreduced, and `to_be_bytes` is
minimal-length (the secret `1` is one byte, not 32). -/
theorem c8_hash_reduction_counterexample :
    zReduced Nsecp ≠ Nsecp % Nsecp ∧ (toBeBytes 1).length ≠ 32 := by decide

/-- C8 (amended): before being hashed, `z` undergoes a *single*
subtraction of `N`, applied only when `z > N` strictly — this equals
`z mod N` only in the band `N < z < 2N`, while `z = N` stays unreduced —
and the hash and secret are serialised as *minimal-length* big-endian
byte strings (a value below 256 is a single byte), not fixed-width. -/
theorem c8_hash_reduction_single_subtraction :
    (∀ z : ℕ, Nsecp < z → z < 2 * Nsecp → zReduced z = z % Nsecp)
    ∧ zReduced Nsecp = Nsecp
    ∧ (∀ eSmall : ℕ, 0 < eSmall → eSmall < 256 →
        toBeBytes eSmall = [eSmall]) := by
  refine ⟨fun z h1 h2 => ?_, by decide, fun eSmall h1 h2 => toBeBytes_small h1 h2⟩
  unfold zReduced
  rw [if_pos h1, Nat.mod_eq_sub_mod (le_of_lt h1), Nat.mod_eq_of_lt (by omega)]

theorem c8_hash_reduction_single_subtraction_witness :
    zReduced (Nsecp + 2) = (Nsecp + 2) % Nsecp :=
  c8_hash_reduction_single_subtraction.1 (Nsecp + 2) (by omega) (by decide)

/-- C9 (confirmed): every signature `sign` returns satisfies
`s ≤ N/2`, and whenever the raw `s = (z + r·e)/k mod N` exceeds `N/2`
the returned component is exactly `N - s`. -/
theorem c9_sign_low_s :
    ∀ (hmac : List ℕ → List ℕ → List ℕ) (fuel e z : ℕ) (sig : Sig),
      pkSign hmac fuel e z = some sig →
      sig.s ≤ Nsecp / 2
      ∧ ∀ k r, detK hmac fuel e z = some k →
          ptX (scalarMul k Gpt) = some r →
          Nsecp / 2 < rawS e z k r → sig.s = Nsecp - rawS e z k r := by
  intro hmac fuel e z sig hsig
  unfold pkSign at hsig
  cases hk : detK hmac fuel e z with
  | none => rw [hk] at hsig; simp at hsig
  | some k =>
    rw [hk] at hsig
    simp only [Option.some_bind] at hsig
    cases hr : ptX (scalarMul k Gpt) with
    | none => rw [hr] at hsig; simp at hsig
    | some r =>
      rw [hr] at hsig
      simp only [Option.map_some', Option.some.injEq] at hsig
      have hlt := rawS_lt e z k r
      constructor
      · rw [← hsig]
        unfold sigNew
        by_cases hc : Nsecp / 2 < rawS e z k r
        · rw [if_pos hc]
          show Nsecp - rawS e z k r ≤ Nsecp / 2
          omega
        · rw [if_neg hc]
          show rawS e z k r ≤ Nsecp / 2
          omega
      · intro k' r' hk' hr' hbig
        injection hk' with hkk
        subst hkk
        rw [hr] at hr'
        injection hr' with hrr
        subst hrr
        rw [← hsig]
        unfold sigNew
        rw [if_pos hbig]

theorem c9_sign_low_s_witness :
    (sigNew Gx Gx).s ≤ Nsecp / 2 :=
  (c9_sign_low_s hmacOne 1 1 0 (sigNew Gx Gx) (by decide)).1

/-- C10 (confirmed): `PrivateKey::new` performs no validation and never
fails: for every `e` (including `0` and `e ≥ N`) the stored public point
is `(e mod N)·G` — the scalar multiplication reduces the coefficient
modulo `N` first — and `e = 0` yields the identity point. -/
theorem c10_private_key_no_validation :
    ∀ e : ℕ,
      (privateKeyNew e).1 = scalarMul (e % Nsecp) Gpt
      ∧ (privateKeyNew e).2 = e
      ∧ (privateKeyNew 0).1 = pointInf := by
  intro e
  refine ⟨?_, rfl, by decide⟩
  show scalarMul e Gpt = scalarMul (e % Nsecp) Gpt
  unfold scalarMul
  rw [Nat.mod_mod_of_dvd e dvd_rfl]

/-- C6 (confirmed): point addition is total on valid points — the
internal `Point::new(x₃, y₃).unwrap()` never panics — and its result is
again a valid point (the identity, or coordinates in range satisfying
`y² = x³ + 7`). -/
theorem c6_point_addition_total_and_closed :
    ∀ p q : Pt, PtValid p → PtValid q →
      ∃ r : Pt, ptAddChecked p q = some r ∧ PtValid r := by
  intro p q hp hq
  match p, q with
  | none, none => exact ⟨none, rfl, hq⟩
  | none, some c => exact ⟨some c, rfl, hq⟩
  | some c, none => exact ⟨some c, rfl, hp⟩
  | some (x₁, y₁), some (x₂, y₂) =>
    simp only [PtValid, ptValidB, Bool.and_eq_true, decide_eq_true_eq] at hp hq
    obtain ⟨⟨hx₁, hy₁⟩, hc₁⟩ := hp
    obtain ⟨⟨hx₂, hy₂⟩, hc₂⟩ := hq
    by_cases hg₁ : x₁ = x₂ ∧ y₁ ≠ y₂
    · exact ⟨none, by simp [ptAddChecked, hg₁], rfl⟩
    · by_cases hg₂ : x₁ = x₂ ∧ elemIsZero y₁ = true
      · refine ⟨none, ?_, rfl⟩
        simp [ptAddChecked, hg₁, hg₂]
      · have hcheck := addClosed x₁ y₁ x₂ y₂ hx₁ hy₁ hx₂ hy₂ hc₁ hc₂ hg₁ hg₂
        refine ⟨some (addX3 x₁ y₁ x₂ y₂, addY3 x₁ y₁ x₂ y₂), ?_, ?_⟩
        · simp [ptAddChecked, hg₁, hg₂, pointNew, hcheck]
        · simp only [PtValid, ptValidB, Bool.and_eq_true, decide_eq_true_eq]
          refine ⟨⟨?_, ?_⟩, hcheck⟩
          · exact Nat.mod_lt _ Psecp_pos
          · exact Nat.mod_lt _ Psecp_pos

theorem c6_point_addition_total_and_closed_witness :
    ∃ r : Pt, ptAddChecked Gpt Gpt = some r ∧ PtValid r :=
  c6_point_addition_total_and_closed Gpt Gpt (by decide) (by decide)

end Secp256k1
